import Mathlib

/-!
Verification of the dinner-party scoring-rule engine
(`src/generation/tasks/dinner_party/random_scoring_rules.py` and
`src/generation/tasks/dinner_party/dinner_party.py`).

The Python code is shallowly embedded: dictionaries become insertion-ordered
association lists, `min`/`max` with a key become fold functions that keep the
first extremal element (CPython semantics), scores are integers (every score
computed by the engine is an integer even though Python types them `float`),
and Python exceptions become an explicit error type.  State mutation of the
`GameScoring` object is explicit state passing.
-/

namespace DinnerParty

/-! ### Python primitives -/

/-- `dict.get(k, default)` on an insertion-ordered association list
(keys are unique, so the first match is the entry). -/
def dget (d : List (String × Int)) (k : String) (dflt : Int) : Int :=
  match d with
  | [] => dflt
  | kv :: t => if kv.1 = k then kv.2 else dget t k dflt

/-- `d[k] = v` on an insertion-ordered association list: an existing key keeps
its position and gets the new value, a new key is appended at the end
(CPython dict semantics). -/
def dset (d : List (String × Int)) (k : String) (v : Int) : List (String × Int) :=
  match d with
  | [] => [(k, v)]
  | kv :: t => if kv.1 = k then (k, v) :: t else kv :: dset t k v

/-- `k in d` for a dict. -/
def dmem (d : List (String × Int)) (k : String) : Bool :=
  d.any (fun kv => kv.1 = k)

/-- `sum(d.values())`. -/
def sumValues (d : List (String × Int)) : Int :=
  (d.map Prod.snd).sum

/-- Python's `min(iterable, key=key)` over a nonempty list `a :: l`:
the first element with the smallest key wins (replacement only on strict `<`). -/
def pyMin {α K : Type} [LinearOrder K] (key : α → K) : α → List α → α
  | a, [] => a
  | a, b :: l => pyMin key (if key b < key a then b else a) l

/-- Python's `max(iterable, key=key)` over a nonempty list `a :: l`:
the first element with the largest key wins (replacement only on strict `>`). -/
def pyMax {α K : Type} [LinearOrder K] (key : α → K) : α → List α → α
  | a, [] => a
  | a, b :: l => pyMax key (if key a < key b then b else a) l

/-- Python's `max(iterable, key=key)` on a possibly empty list; `none` models
the `ValueError` Python raises on an empty iterable (all call sites in the
source guard for emptiness first). -/
def pyMaxL {α K : Type} [LinearOrder K] (key : α → K) : List α → Option α
  | [] => none
  | a :: l => some (pyMax key a l)

/-- `ord(s[0])`: code point of the first character of a string.  Python raises
`IndexError` on the empty string; the engine only ever applies this to interest
names, which the input contract makes nonempty, so the `0` default is
unreachable on valid inputs. -/
def ordFirst (s : String) : Int :=
  match s.data with
  | [] => 0
  | c :: _ => (c.toNat : Int)

/-- Stable insertion of an element into a list sorted by a boolean `le`. -/
def sortedInsert {α : Type} (le : α → α → Bool) : α → List α → List α
  | a, [] => [a]
  | a, b :: l => if le a b then a :: b :: l else b :: sortedInsert le a l

/-- `sorted(l, key=...)` (the engine only sorts by keys that are distinct on
the sorted list, so any correct comparison sort matches Python's stable sort). -/
def pySorted {α : Type} (le : α → α → Bool) (l : List α) : List α :=
  l.foldr (sortedInsert le) []

/-! ### Data model (`dinner_party.py`) -/

/-- A guest: `Person(name, interests)` after `__post_init__`.  Interest levels
are integers; the interests dict is an insertion-ordered association list. -/
structure Person where
  name : String
  interests : List (String × Int)
deriving DecidableEq, Repr

/-- `Person.__post_init__`: the constructor receives a mapping whose levels may
be null (`None`, modelled by `Option Int`) and removes exactly the entries
whose value is `None` — zero and negative levels are NOT removed
(`self.interests = {k: v for k, v in self.interests.items() if v is not None}`). -/
def mkPerson (name : String) (raw : List (String × Option Int)) : Person :=
  { name := name
    interests := raw.filterMap (fun kv => kv.2.map (fun v => (kv.1, v))) }

/-- Interest names of a guest (`person.interests.keys()`). -/
def keysOf (p : Person) : List String :=
  p.interests.map Prod.fst

/-- `len(set(person.interests.keys()) & set(host.interests.keys()))`: the number
of interests a guest shares with the host.  Dict keys are unique, so the
set intersection size is the count of (distinct) keys of `p` that are keys of
the host. -/
def sharedCount (p host : Person) : Nat :=
  ((keysOf p).dedup.filter (fun k => (keysOf host).contains k)).length

/-- Round metadata: the optional `"interest"`, `"host"` and `"niche_interests"`
keys of the notes dict returned by `score_round`. -/
structure Metadata where
  interest : Option String := none
  host : Option String := none
  niche_interests : Option (List String) := none
deriving DecidableEq, Repr

/-- The empty metadata dict `{}`. -/
def Metadata.empty : Metadata := {}

/-! ### Scoring rules (`random_scoring_rules.py`)

Each concrete `ScoringRule` subclass becomes a constructor of `SRule`,
carrying exactly the parameters the Python instance stores
(`points_per_interest`, `bonus_points`, the chosen `interest`,
`ignore_previous_interests`). -/

inductive SRule where
  | fewestInterestsLargestValue : SRule
  | fewestInterestsHost (points_per_interest : Int) : SRule
  | nicheInterests (bonus_points : Int) : SRule
  | wellRounded : SRule
  | alphabeticHostInterest : SRule
  | largestInterestValue : SRule
  | eachPersonSpeaks : SRule
  | singleInterest (interest : String) : SRule
  | mostCommonInterest (ignore_previous_interests : Bool) : SRule
  | mostCommonInterestExceptPrevious (ignore_previous_interests : Bool) : SRule
deriving DecidableEq, Repr

/-- The shared selection key `lambda x: (x[1], -ord(x[0][0]))` used by
`_find_largest_interest`, `LargestInterestValueRule`, `EachPersonSpeaksRule`
and `MostCommonInterestRule`: compare the value first, then the NEGATED code
point of the FIRST character of the name. -/
def keyVF (x : String × Int) : Lex (Int × Int) :=
  toLex (x.2, -(ordFirst x.1))

/-- The shared maximum-selection of all four interest-picking sites:
`max(items, key=lambda x: (x[1], -ord(x[0][0])))`, `none` on an empty dict. -/
def maxInterestByValue (l : List (String × Int)) : Option (String × Int) :=
  pyMaxL keyVF l

/-- `ScoringRule._find_largest_interest`: `None` on an empty dict, otherwise
the `(value, -ord(name[0]))`-maximal item. -/
def find_largest_interest (interests : List (String × Int)) : Option (String × Int) :=
  maxInterestByValue interests

/-- `[p for p in people if p.name not in game_scoring.previous_hosts]`. -/
def availableHosts (people : List Person) (prev : List String) : List Person :=
  people.filter (fun p => !(prev.contains p.name))

/-- Host-selection skeleton shared by `_select_host_from_available` and the
identical inline code of `FewestInterestsHostRule.score_round` and
`AlphabeticHostInterestRule.score_round`: filter out previous hosts, reset the
exclusion list if nobody is left, pick the key-minimal available person, and
append their name to `previous_hosts`.  `none` models the `ValueError` of
`min([])`, reachable only when `people` is empty. -/
def hostSelect {K : Type} [LinearOrder K] (key : Person → K)
    (people : List Person) (prev : List String) : Option (Person × List String) :=
  let avail := availableHosts people prev
  let prev0 := if avail.isEmpty then ([] : List String) else prev
  let avail0 := if avail.isEmpty then people else avail
  match avail0 with
  | [] => none
  | a :: rest =>
      let host := pyMin key a rest
      some (host, prev0 ++ [host.name])

/-- The host key of `FewestInterestsHostRule` / `FewestInterestsLargestValueRule`:
`lambda x: (len(x.interests), x.name)`.  Python compares strings by code
points, which is the lexicographic order on their character lists. -/
def keyFewest (p : Person) : Lex (Nat × List Char) :=
  toLex (p.interests.length, p.name.data)

/-- The host key of `AlphabeticHostInterestRule`: `lambda x: x.name` (string
comparison by code points = lexicographic order on the character list). -/
def keyAlpha (p : Person) : List Char :=
  p.name.data

/-- `{person.name: f(person) for person in people}`, or equivalently the loop
`for person in people: scores[person.name] = f(person)` every rule uses to
build its per-round scores dict. -/
def buildScores (people : List Person) (f : Person → Int) : List (String × Int) :=
  people.foldl (fun d p => dset d p.name (f p)) []

/-- `ScoringRule._calculate_scores_for_interest`. -/
def calculate_scores_for_interest (people : List Person) (interest : String) :
    List (String × Int) :=
  buildScores people (fun p => dget p.interests interest 0)

/-- The interest totals dict of `NicheInterestsRule.score_round`
(`interest_totals[interest] += level`, keys in first-encounter order). -/
def nicheTotals (people : List Person) : List (String × Int) :=
  people.foldl
    (fun d p => p.interests.foldl (fun d kv => dset d kv.1 (dget d kv.1 0 + kv.2)) d) []

/-- `sorted(interest_totals.items(), key=lambda x: (x[1], x[0]))[:3]` mapped to
names: the three lowest-total interests, ties broken by the FULL interest name
(the sort key is total, then name, which is injective on dict items). -/
def nicheNames (people : List Person) : List String :=
  ((pySorted (fun a b => decide (toLex (a.2, a.1.data) ≤ toLex (b.2, b.1.data)))
      (nicheTotals people)).take 3).map Prod.fst

/-- The per-guest score of `NicheInterestsRule`: `bonus_points` for each niche
interest the guest holds. -/
def nicheScore (bp : Int) (niche : List String) (p : Person) : Int :=
  niche.foldl (fun s i => if dmem p.interests i then s + bp else s) 0

/-- The per-guest score of `WellRoundedInterestsRule`:
`max(0, 10 - (max(values) - min(values)))`, `0` for a guest with no interests. -/
def wellRoundedScore (p : Person) : Int :=
  match p.interests.map Prod.snd with
  | [] => 0
  | v :: vs => max 0 (10 - (vs.foldl max v - vs.foldl min v))

/-- The undiscussed interest-values dict of `LargestInterestValueRule.score_round`:
for every undiscussed interest, the largest single value any guest has in it
(`if value > interest_values.get(interest, 0): interest_values[interest] = value`). -/
def collectInterestValues (people : List Person) (discussed : List String) :
    List (String × Int) :=
  people.foldl
    (fun d p =>
      p.interests.foldl
        (fun d kv =>
          if discussed.contains kv.1 then d
          else if dget d kv.1 0 < kv.2 then dset d kv.1 kv.2 else d)
        d)
    []

/-- A guest's undiscussed interests in `EachPersonSpeaksRule.score_round`:
`{k: v for k, v in person.interests.items() if k not in discussed}`. -/
def availInterests (p : Person) (discussed : List String) : List (String × Int) :=
  p.interests.filter (fun kv => !(discussed.contains kv.1))

/-- The per-guest score of `EachPersonSpeaksRule`: the value of the
`(value, -ord(name[0]))`-maximal undiscussed interest, `0` if none remain. -/
def epsScore (discussed : List String) (p : Person) : Int :=
  match maxInterestByValue (availInterests p discussed) with
  | some kv => kv.2
  | none => 0

/-- The interest-counts dict of `MostCommonInterestRule.score_round`: how many
guests hold each interest with a positive level (levels are never `None` after
`Person.__post_init__`), skipping discussed interests when
`ignore_previous_interests` is set. -/
def collectInterestCounts (people : List Person) (discussed : List String)
    (ignore_previous : Bool) : List (String × Int) :=
  people.foldl
    (fun d p =>
      p.interests.foldl
        (fun d kv =>
          if kv.2 > 0 && (!ignore_previous || !(discussed.contains kv.1)) then
            dset d kv.1 (dget d kv.1 0 + 1)
          else d)
        d)
    []

/-- `MostCommonInterestRule.score_round` (shared by
`MostCommonInterestExceptPrevious`, which inherits it). -/
def mostCommonRound (ignore_previous : Bool) (people : List Person)
    (discussed : List String) : List (String × Int) × Metadata :=
  let interest_counts := collectInterestCounts people discussed ignore_previous
  match maxInterestByValue interest_counts with
  | none => (buildScores people (fun _ => 0), Metadata.empty)
  | some mc =>
      (buildScores people (fun p => dget p.interests mc.1 0),
        { interest := some mc.1 })

/-- `score_round` of every rule variant, as a function of the selected guests
and the two context fields the rules read (`discussed_interests`,
`previous_hosts`); it returns the round's scores dict, the notes dict, and the
new `previous_hosts` (the only context field any rule mutates).  The `none`
results of `hostSelect` (Python: `ValueError` from `min([])`, only when
`people` is empty) are mapped to an unreachable default. -/
def SRule.score_round (r : SRule) (people : List Person)
    (discussed : List String) (prev : List String) :
    List (String × Int) × Metadata × List String :=
  match r with
  | .fewestInterestsLargestValue =>
      match hostSelect keyFewest people prev with
      | none => ([], Metadata.empty, prev)
      | some (host, prev1) =>
          match find_largest_interest host.interests with
          | none => (buildScores people (fun _ => 0), Metadata.empty, prev1)
          | some mi =>
              (calculate_scores_for_interest people mi.1,
                { interest := some mi.1, host := some host.name }, prev1)
  | .fewestInterestsHost ppi =>
      match hostSelect keyFewest people prev with
      | none => ([], Metadata.empty, prev)
      | some (host, prev1) =>
          (buildScores people (fun p => ppi * (sharedCount p host : Int)),
            { host := some host.name }, prev1)
  | .nicheInterests bp =>
      let niche := nicheNames people
      (buildScores people (nicheScore bp niche),
        { niche_interests := some niche }, prev)
  | .wellRounded =>
      (buildScores people wellRoundedScore, Metadata.empty, prev)
  | .alphabeticHostInterest =>
      match hostSelect keyAlpha people prev with
      | none => ([], Metadata.empty, prev)
      | some (host, prev1) =>
          (buildScores people (fun p => 2 * (sharedCount p host : Int)),
            { host := some host.name }, prev1)
  | .largestInterestValue =>
      let interest_values := collectInterestValues people discussed
      match maxInterestByValue interest_values with
      | none => (buildScores people (fun _ => 0), Metadata.empty, prev)
      | some mi =>
          (buildScores people (fun p => dget p.interests mi.1 0),
            { interest := some mi.1 }, prev)
  | .eachPersonSpeaks =>
      (buildScores people (epsScore discussed), Metadata.empty, prev)
  | .singleInterest i =>
      (buildScores people (fun p => dget p.interests i 0),
        { interest := some i }, prev)
  | .mostCommonInterest flag =>
      let (scores, md) := mostCommonRound flag people discussed
      (scores, md, prev)
  | .mostCommonInterestExceptPrevious flag =>
      let (scores, md) := mostCommonRound flag people discussed
      (scores, md, prev)

/-- `get_cr` of each variant (`MostCommonInterestExceptPrevious.get_cr`
delegates to `MostCommonInterestRule.get_cr`). -/
def SRule.get_cr : SRule → Nat
  | .fewestInterestsLargestValue => 4
  | .fewestInterestsHost _ => 4
  | .nicheInterests _ => 2
  | .wellRounded => 1
  | .alphabeticHostInterest => 3
  | .largestInterestValue => 3
  | .eachPersonSpeaks => 1
  | .singleInterest _ => 1
  | .mostCommonInterest _ => 3
  | .mostCommonInterestExceptPrevious _ => 3

/-! ### Game state and the round driver (`GameScoring`) -/

/-- The `GameScoring` dataclass.  The `None` defaults of `discussed_interests`
and `previous_hosts` are modelled as `[]`: the driver resets both to `[]`
before any rule runs, and every rule normalises `None` to `[]` on read. -/
structure GameScoring where
  scoring_complexity : Int
  rules : List SRule
  discussed_interests : List String := []
  previous_hosts : List String := []
  current_round : Nat := 0
  scores : List (String × Int) := []
deriving DecidableEq, Repr

/-- `GameScoring.reset`. -/
def GameScoring.reset (gs : GameScoring) : GameScoring :=
  { gs with
    discussed_interests := []
    previous_hosts := []
    scores := {}
    current_round := 0 }

/-- One iteration of the `score_all_rounds` loop: run the rule, record a
reported `"interest"` in `discussed_interests` and a reported `"host"` in
`previous_hosts` (on top of the append the rule itself already performed),
and fold the round's scores into the cumulative dict
(`if name not in scores: scores[name] = 0; scores[name] += score`). -/
def driverStep (people : List Person) (gs : GameScoring) (r : SRule) : GameScoring :=
  let res := r.score_round people gs.discussed_interests gs.previous_hosts
  let round_scores := res.1
  let notes := res.2.1
  let prevAfterRule := res.2.2
  let discussed' :=
    match notes.interest with
    | some i => gs.discussed_interests ++ [i]
    | none => gs.discussed_interests
  let prev' :=
    match notes.host with
    | some h => prevAfterRule ++ [h]
    | none => prevAfterRule
  let scores' :=
    round_scores.foldl (fun s kv => dset s kv.1 (dget s kv.1 0 + kv.2)) gs.scores
  { gs with
    discussed_interests := discussed'
    previous_hosts := prev'
    scores := scores' }

/-- `GameScoring.score_all_rounds`: reset, fold every rule through
`driverStep`, take the total `sum(scores.values())`, reset again, and return
the total together with the (reset) state object. -/
def scoreAllRounds (gs : GameScoring) (people : List Person) : Int × GameScoring :=
  let g0 := gs.reset
  let gF := g0.rules.foldl (driverStep people) g0
  (sumValues gF.scores, gF.reset)

/-! ### Serialization (`to_dict` / `from_dict` / `scoring_rule_from_dict`) -/

/-- The structured record a rule serializes to: the `"type"` field plus the
variant-specific fields, each `none` when the key is absent from the dict. -/
structure RuleDict where
  type : Option String := none
  interest : Option String := none
  points_per_interest : Option Int := none
  bonus_points : Option Int := none
  ignore_previous_interests : Option Bool := none
deriving DecidableEq, Repr

/-- `to_dict` of each rule variant. -/
def SRule.to_dict : SRule → RuleDict
  | .fewestInterestsLargestValue => { type := some "FewestInterestsLargestValueRule" }
  | .fewestInterestsHost ppi =>
      { type := some "FewestInterestsHostRule", points_per_interest := some ppi }
  | .nicheInterests bp =>
      { type := some "NicheInterestsRule", bonus_points := some bp }
  | .wellRounded => { type := some "WellRoundedInterestsRule" }
  | .alphabeticHostInterest => { type := some "AlphabeticHostInterestRule" }
  | .largestInterestValue => { type := some "LargestInterestValueRule" }
  | .eachPersonSpeaks => { type := some "EachPersonSpeaksRule" }
  | .singleInterest i => { type := some "SingleInterestRule", interest := some i }
  | .mostCommonInterest flag =>
      { type := some "MostCommonInterestRule", ignore_previous_interests := some flag }
  | .mostCommonInterestExceptPrevious flag =>
      { type := some "MostCommonInterestExceptPrevious",
        ignore_previous_interests := some flag }

/-- Python exceptions raised on the deserialization paths. -/
inductive PyErr where
  | valueError (msg : String) : PyErr
  | keyError (key : String) : PyErr
  | indexError : PyErr
deriving DecidableEq, Repr

/-- The part of the `DinnerParty` object the rule layer reads:
`dinner_party.all_interests`. -/
structure DinnerPartyCtx where
  all_interests : List String
deriving DecidableEq, Repr

/-- The fresh randomness each `from_dict` classmethod consumes by calling the
class constructor before overwriting the randomized attribute from the record:
an index for `random.choice(dinner_party.all_interests)` (the
`random.randint` draws of `FewestInterestsHostRule` and `NicheInterestsRule`
are likewise immediately overwritten and need no modelling). -/
structure Fresh where
  choiceIdx : Nat := 0
deriving DecidableEq, Repr

/-- `scoring_rule_from_dict`: the `if/elif` chain on `data.get("type")`,
dispatching to each variant's `from_dict`.  Each `from_dict` first constructs
the class (for `SingleInterestRule` this already raises `IndexError` when the
interest universe is empty, since `random.choice([])` fails) and then
overwrites the randomized attributes from the record, raising `KeyError` when
a required field is absent.  An unrecognized (or missing) `"type"` raises
`ValueError`. -/
def scoring_rule_from_dict (data : RuleDict) (fresh : Fresh)
    (dinner_party : DinnerPartyCtx) : Except PyErr SRule :=
  let rule_type := data.type
  if rule_type = some "FewestInterestsLargestValueRule" then
    .ok .fewestInterestsLargestValue
  else if rule_type = some "FewestInterestsHostRule" then
    match data.points_per_interest with
    | some v => .ok (.fewestInterestsHost v)
    | none => .error (.keyError "points_per_interest")
  else if rule_type = some "NicheInterestsRule" then
    match data.bonus_points with
    | some v => .ok (.nicheInterests v)
    | none => .error (.keyError "bonus_points")
  else if rule_type = some "WellRoundedInterestsRule" then
    .ok .wellRounded
  else if rule_type = some "AlphabeticHostInterestRule" then
    .ok .alphabeticHostInterest
  else if rule_type = some "LargestInterestValueRule" then
    .ok .largestInterestValue
  else if rule_type = some "EachPersonSpeaksRule" then
    .ok .eachPersonSpeaks
  else if rule_type = some "SingleInterestRule" then
    match dinner_party.all_interests with
    | [] => .error .indexError
    | a :: rest =>
        -- the constructor's fresh draw, overwritten by `data["interest"]`
        let _drawn := (a :: rest).getD (fresh.choiceIdx % (a :: rest).length) a
        match data.interest with
        | some i => .ok (.singleInterest i)
        | none => .error (.keyError "interest")
  else if rule_type = some "MostCommonInterestRule" then
    match data.ignore_previous_interests with
    | some b => .ok (.mostCommonInterest b)
    | none => .error (.keyError "ignore_previous_interests")
  else if rule_type = some "MostCommonInterestExceptPrevious" then
    match data.ignore_previous_interests with
    | some b => .ok (.mostCommonInterestExceptPrevious b)
    | none => .error (.keyError "ignore_previous_interests")
  else
    .error (.valueError ("Unknown rule type: " ++ rule_type.getD "None"))

/-- The variant names `scoring_rule_from_dict` recognizes, in dispatch order. -/
def recognizedRuleNames : List String :=
  ["FewestInterestsLargestValueRule", "FewestInterestsHostRule",
   "NicheInterestsRule", "WellRoundedInterestsRule",
   "AlphabeticHostInterestRule", "LargestInterestValueRule",
   "EachPersonSpeaksRule", "SingleInterestRule",
   "MostCommonInterestRule", "MostCommonInterestExceptPrevious"]

/-- The fields the variant-specific `from_dict` classmethods read from the
record (`KeyError` when absent). -/
def requiredFieldsOk (data : RuleDict) : Prop :=
  (data.type = some "FewestInterestsHostRule" → data.points_per_interest.isSome) ∧
  (data.type = some "NicheInterestsRule" → data.bonus_points.isSome) ∧
  (data.type = some "SingleInterestRule" → data.interest.isSome) ∧
  (data.type = some "MostCommonInterestRule" → data.ignore_previous_interests.isSome) ∧
  (data.type = some "MostCommonInterestExceptPrevious" →
    data.ignore_previous_interests.isSome)

instance (data : RuleDict) : Decidable (requiredFieldsOk data) := by
  unfold requiredFieldsOk; infer_instance

/-! ### The rule composer (`random_scoring_rules`) -/

/-- A rule class, as listed in `ALL_RULES` (instances are only created after a
class is drawn). -/
inductive RuleTag where
  | eachPersonSpeaks | mostCommonInterest | singleInterest
  | mostCommonInterestExceptPrevious | largestInterestValue
  | alphabeticHostInterest | fewestInterestsHost
  | fewestInterestsLargestValue | wellRounded | nicheInterests
deriving DecidableEq, Repr

/-- `cls.get_cr()` of each rule class. -/
def crT : RuleTag → Nat
  | .eachPersonSpeaks => 1
  | .mostCommonInterest => 3
  | .singleInterest => 1
  | .mostCommonInterestExceptPrevious => 3
  | .largestInterestValue => 3
  | .alphabeticHostInterest => 3
  | .fewestInterestsHost => 4
  | .fewestInterestsLargestValue => 4
  | .wellRounded => 1
  | .nicheInterests => 2

/-- The `ALL_RULES` registry, in source order. -/
def ALL_RULES : List RuleTag :=
  [.eachPersonSpeaks, .mostCommonInterest, .singleInterest,
   .mostCommonInterestExceptPrevious, .largestInterestValue,
   .alphabeticHostInterest, .fewestInterestsHost,
   .fewestInterestsLargestValue, .wellRounded, .nicheInterests]

/-- Constructing an instance of a drawn rule class, with the constructor's
randomness supplied by the natural number `d`:
`random.randint(2, 5)` becomes `2 + d % 4`, `random.randint(3, 7)` becomes
`3 + d % 5`, and `random.choice(all_interests)` becomes indexing by
`d % length` — `none` models the `IndexError` of `random.choice([])`. -/
def mkRuleInstance (t : RuleTag) (d : Nat) (allInterests : List String) :
    Option SRule :=
  match t with
  | .eachPersonSpeaks => some .eachPersonSpeaks
  | .mostCommonInterest => some (.mostCommonInterest false)
  | .singleInterest =>
      match allInterests with
      | [] => none
      | a :: rest => some (.singleInterest ((a :: rest).getD (d % (a :: rest).length) a))
  | .mostCommonInterestExceptPrevious => some (.mostCommonInterestExceptPrevious true)
  | .largestInterestValue => some .largestInterestValue
  | .alphabeticHostInterest => some .alphabeticHostInterest
  | .fewestInterestsHost => some (.fewestInterestsHost (2 + (d : Int) % 4))
  | .fewestInterestsLargestValue => some .fewestInterestsLargestValue
  | .wellRounded => some .wellRounded
  | .nicheInterests => some (.nicheInterests (3 + (d : Int) % 5))

/-- The `ideal_points_per_rule` of the composer loop: remaining budget over
remaining rounds while the round quota is unmet, otherwise the largest
affordable CR. -/
def idealPointsPerRule (remaining : ℚ) (remainingRules : Int)
    (possible : List RuleTag) : ℚ :=
  if remainingRules > 0 then remaining / (remainingRules : ℚ)
  else ((possible.map (fun t => (crT t : ℚ))).foldr max 0)

/-- The weight `(1 / (|cr - ideal| + 1)) ** weighting_exponent` given to a
candidate rule (exponent `none` means no weighting; the source's float
exponent 2.0 is the rational square). -/
def ruleWeight (weightingExponent : Option Nat) (cr ideal : ℚ) : ℚ :=
  match weightingExponent with
  | some n => (1 / (|cr - ideal| + 1)) ^ n
  | none => 1

/-- The candidate rule classes of one composer step: those whose CR fits the
remaining budget, with `MostCommonInterestExceptPrevious` additionally
excluded while no rule has been chosen yet. -/
def possibleRules (remaining : Nat) (rules : List SRule) : List RuleTag :=
  let possible0 := ALL_RULES.filter (fun t => crT t ≤ remaining)
  if rules.isEmpty then
    possible0.filter (fun t => t ≠ .mostCommonInterestExceptPrevious)
  else possible0

/-- The `while remaining_points > 0` loop of `random_scoring_rules`: while
budget remains and some candidate fits, draw a candidate class (the weighted
draw — all weights positive by `ruleWeight_pos` — is modelled by `oracle step`,
which supplies the drawn index and the constructor randomness), construct an
instance, and deduct its CR.  `none` propagates a constructor `IndexError`
(empty interest universe). -/
def composeLoop (oracle : Nat → Nat × Nat) (allInterests : List String) :
    Nat → Nat → List SRule → Option (List SRule)
  | remaining, step, rules =>
    if h0 : remaining = 0 then some rules
    else
      match possibleRules remaining rules with
      | [] => some rules
      | a :: rest =>
          let chosen := (a :: rest).getD ((oracle step).1 % (a :: rest).length) a
          match mkRuleInstance chosen (oracle step).2 allInterests with
          | none => none
          | some rule =>
              composeLoop oracle allInterests
                (remaining - crT chosen) (step + 1) (rules ++ [rule])
  termination_by remaining _ _ => remaining
  decreasing_by
    have hc : ∀ u : RuleTag, 0 < crT u := by intro u; cases u <;> simp [crT]
    exact Nat.sub_lt (Nat.pos_of_ne_zero h0) (hc _)

/-- `random_scoring_rules(points, dinner_party)`: run the composer loop and
wrap the chosen rules in a `GameScoring` with `scoring_complexity = points`
(the `__post_init__` complexity check only prints a warning). -/
def random_scoring_rules (points : Nat) (oracle : Nat → Nat × Nat)
    (dinner_party : DinnerPartyCtx) : Option GameScoring :=
  (composeLoop oracle dinner_party.all_interests points 0 []).map
    (fun rs => { scoring_complexity := (points : Int), rules := rs })

/-! ### Definitions used to state the claims about tie-breaking and rotation -/

/-- Modelled from the spec for the refinement comparison of C1: a max over the
key `(value, name)` favoring lexicographically earlier FULL names on value
ties (the spec's "highest value, alphabetically first on ties"). -/
def specLargestInterest (l : List (String × Int)) : Option (String × Int) :=
  pyMaxL (fun x => toLex (x.2, OrderDual.toDual x.1.data)) l

/-- The rule variants that assign a host (and append it to `previous_hosts`
inside `score_round`). -/
def isHostRule : SRule → Bool
  | .alphabeticHostInterest => true
  | .fewestInterestsHost _ => true
  | .fewestInterestsLargestValue => true
  | _ => false

/-- The host a host-assigning rule selects in the current round (the person
`min(available_hosts, key=...)` returns), as a function of the guest list and
`previous_hosts`; `none` for non-host rules. -/
def selectedHost : SRule → List Person → List String → Option Person
  | .alphabeticHostInterest, people, prev => (hostSelect keyAlpha people prev).map Prod.fst
  | .fewestInterestsHost _, people, prev => (hostSelect keyFewest people prev).map Prod.fst
  | .fewestInterestsLargestValue, people, prev =>
      (hostSelect keyFewest people prev).map Prod.fst
  | _, _, _ => none

/-- The driver fold of `score_all_rounds`, instrumented to record, per round,
the selected host's name together with whether that round reset the host
exclusion list (nobody was available). -/
def driverTraceAux (people : List Person) :
    List SRule → GameScoring → List (String × Bool) × GameScoring
  | [], gs => ([], gs)
  | r :: rs, gs =>
    let info : Option (String × Bool) :=
      (selectedHost r people gs.previous_hosts).map
        (fun h => (h.name, (availableHosts people gs.previous_hosts).isEmpty))
    let next := driverTraceAux people rs (driverStep people gs r)
    match info with
    | some hb => (hb :: next.1, next.2)
    | none => next

/-- Split a host trace into the rotation segments delimited by the resets:
a reset closes the current segment and opens a new one with that round's host. -/
def splitSegments : List (String × Bool) → List String → List (List String) × List String
  | [], cur => ([], cur)
  | (h, b) :: t, cur =>
    if b then
      let next := splitSegments t [h]
      (cur :: next.1, next.2)
    else splitSegments t (cur ++ [h])

/-- A concrete two-guest roster used to exercise the host rotation. -/
def rotationRoster : List Person :=
  [⟨"A", [("x", 1)]⟩, ⟨"B", [("x", 2), ("y", 1)]⟩]

/-- A concrete configuration of four host-assigning rounds (more rounds than
guests, forcing a rotation reset). -/
def rotationDemo : GameScoring :=
  { scoring_complexity := 14
    rules := [.alphabeticHostInterest, .fewestInterestsHost 2,
      .fewestInterestsLargestValue, .alphabeticHostInterest] }

/-! ### General lemmas about the embedded Python primitives -/

/-- Every candidate weight of the composer is strictly positive, so
`random.choices` can draw any candidate: this justifies modelling the weighted
draw by an oracle that returns an arbitrary index into `possible_rules`. -/
theorem ruleWeight_pos (e : Option Nat) (cr ideal : ℚ) :
    0 < ruleWeight e cr ideal := by
  unfold ruleWeight
  match e with
  | some n => positivity
  | none => norm_num

/-- Every rule class has complexity rating at least 1. -/
theorem crT_pos (t : RuleTag) : 0 < crT t := by
  cases t <;> simp [crT]

theorem pyMin_mem {α K : Type} [LinearOrder K] (key : α → K) :
    ∀ (l : List α) (a : α), pyMin key a l ∈ a :: l := by
  intro l
  induction l with
  | nil => intro a; simp [pyMin]
  | cons b t ih =>
    intro a
    simp only [pyMin]
    rcases List.mem_cons.mp (ih (if key b < key a then b else a)) with h | h
    · rw [h]
      split <;> simp
    · exact List.mem_cons_of_mem _ (List.mem_cons_of_mem _ h)

theorem pyMin_le {α K : Type} [LinearOrder K] (key : α → K) :
    ∀ (l : List α) (a : α) (x : α), x ∈ a :: l → key (pyMin key a l) ≤ key x := by
  intro l
  induction l with
  | nil =>
    intro a x hx
    rcases List.mem_cons.mp hx with h | h
    · rw [h]; simp [pyMin]
    · cases h
  | cons b t ih =>
    intro a x hx
    have seed : ∀ c : α, key (pyMin key c t) ≤ key c := fun c => ih c c (List.mem_cons_self c t)
    have hle : key (if key b < key a then b else a) ≤ key a ∧
        key (if key b < key a then b else a) ≤ key b := by
      by_cases hba : key b < key a
      · rw [if_pos hba]; exact ⟨le_of_lt hba, le_refl _⟩
      · rw [if_neg hba]; exact ⟨le_refl _, le_of_not_lt hba⟩
    rcases List.mem_cons.mp hx with h | hx'
    · rw [h]
      simp only [pyMin]
      exact le_trans (seed _) hle.1
    · rcases List.mem_cons.mp hx' with h | h
      · rw [h]
        simp only [pyMin]
        exact le_trans (seed _) hle.2
      · simp only [pyMin]
        exact ih _ x (List.mem_cons_of_mem _ h)

theorem pyMax_mem {α K : Type} [LinearOrder K] (key : α → K) :
    ∀ (l : List α) (a : α), pyMax key a l ∈ a :: l := by
  intro l
  induction l with
  | nil => intro a; simp [pyMax]
  | cons b t ih =>
    intro a
    simp only [pyMax]
    rcases List.mem_cons.mp (ih (if key a < key b then b else a)) with h | h
    · rw [h]
      split <;> simp
    · exact List.mem_cons_of_mem _ (List.mem_cons_of_mem _ h)

theorem pyMax_ge {α K : Type} [LinearOrder K] (key : α → K) :
    ∀ (l : List α) (a : α) (x : α), x ∈ a :: l → key x ≤ key (pyMax key a l) := by
  intro l
  induction l with
  | nil =>
    intro a x hx
    rcases List.mem_cons.mp hx with h | h
    · rw [h]; simp [pyMax]
    · cases h
  | cons b t ih =>
    intro a x hx
    have seed : ∀ c : α, key c ≤ key (pyMax key c t) := fun c => ih c c (List.mem_cons_self c t)
    have hle : key a ≤ key (if key a < key b then b else a) ∧
        key b ≤ key (if key a < key b then b else a) := by
      by_cases hab : key a < key b
      · rw [if_pos hab]; exact ⟨le_of_lt hab, le_refl _⟩
      · rw [if_neg hab]; exact ⟨le_refl _, le_of_not_lt hab⟩
    rcases List.mem_cons.mp hx with h | hx'
    · rw [h]
      simp only [pyMax]
      exact le_trans hle.1 (seed _)
    · rcases List.mem_cons.mp hx' with h | h
      · rw [h]
        simp only [pyMax]
        exact le_trans hle.2 (seed _)
      · simp only [pyMax]
        exact ih _ x (List.mem_cons_of_mem _ h)

/-- Python's `max` keeps the FIRST element attaining the maximal key: the
result splits the list into a strictly-smaller-key prefix, the result itself,
and a (≤)-suffix. -/
theorem pyMax_first {α K : Type} [LinearOrder K] (key : α → K) :
    ∀ (l : List α) (a : α), ∃ l1 l2, a :: l = l1 ++ pyMax key a l :: l2 ∧
      ∀ x ∈ l1, key x < key (pyMax key a l) := by
  intro l
  induction l with
  | nil => intro a; exact ⟨[], [], by simp [pyMax], by simp⟩
  | cons b t ih =>
    intro a
    by_cases hab : key a < key b
    · have hr : pyMax key a (b :: t) = pyMax key b t := by simp [pyMax, hab]
      obtain ⟨l1, l2, heq, hlt⟩ := ih b
      refine ⟨a :: l1, l2, ?_, ?_⟩
      · rw [hr, List.cons_append, ← heq]
      · intro x hx
        rcases List.mem_cons.mp hx with h | h
        · rw [h, hr]
          exact lt_of_lt_of_le hab (pyMax_ge key t b b (List.mem_cons_self b t))
        · rw [hr]; exact hlt x h
    · have hr : pyMax key a (b :: t) = pyMax key a t := by simp [pyMax, hab]
      obtain ⟨l1, l2, heq, hlt⟩ := ih a
      cases l1 with
      | nil =>
        simp only [List.nil_append] at heq
        injection heq with h1 h2
        refine ⟨[], b :: t, ?_, by simp⟩
        rw [hr, ← h1]
        simp
      | cons c l1' =>
        simp only [List.cons_append] at heq
        injection heq with h1 h2
        subst h1
        refine ⟨a :: b :: l1', l2, ?_, ?_⟩
        · rw [hr, List.cons_append, List.cons_append, ← h2]
        · intro x hx
          have ha_lt : key a < key (pyMax key a t) := hlt a (List.mem_cons_self a l1')
          rcases List.mem_cons.mp hx with h | hx'
          · rw [h, hr]; exact ha_lt
          · rcases List.mem_cons.mp hx' with h | h
            · rw [h, hr]
              exact lt_of_le_of_lt (le_of_not_lt hab) ha_lt
            · rw [hr]
              exact hlt x (List.mem_cons_of_mem _ h)

theorem dget_dset_self (d : List (String × Int)) (k : String) (v : Int) (dflt : Int) :
    dget (dset d k v) k dflt = v := by
  induction d with
  | nil => simp [dget, dset]
  | cons kv t ih =>
    by_cases h : kv.1 = k
    · simp [dget, dset, h]
    · simp [dget, dset, h, ih]

theorem dget_dset_ne (d : List (String × Int)) (k k' : String) (v : Int) (dflt : Int)
    (h : k' ≠ k) : dget (dset d k v) k' dflt = dget d k' dflt := by
  have hks : ¬ (k = k') := fun hh => h hh.symm
  induction d with
  | nil => simp [dget, dset, hks]
  | cons kv t ih =>
    by_cases hk : kv.1 = k
    · have : ¬ (k = k') := fun hh => h hh.symm
      simp [dget, dset, hk, this]
    · by_cases hk' : kv.1 = k'
      · simp [dget, dset, hk, hk', h]
      · simp [dget, dset, hk, hk', ih]

/-- Folding per-person `dset` writes leaves keys outside the written names
untouched. -/
theorem foldl_dset_skip (f : Person → Int) (k : String) (dflt : Int) :
    ∀ (people : List Person) (d0 : List (String × Int)),
      k ∉ people.map Person.name →
      dget (people.foldl (fun d q => dset d q.name (f q)) d0) k dflt = dget d0 k dflt := by
  intro people
  induction people with
  | nil => intro d0 _; rfl
  | cons q t ih =>
    intro d0 hk
    simp only [List.map_cons, List.mem_cons] at hk
    push_neg at hk
    simp only [List.foldl_cons]
    rw [ih _ hk.2, dget_dset_ne _ _ _ _ _ hk.1]

/-- Looking up a guest in a scores dict built by `buildScores` over guests with
distinct names yields that guest's value. -/
theorem dget_buildScores (f : Person → Int) (dflt : Int) :
    ∀ (people : List Person) (p : Person), p ∈ people →
      (people.map Person.name).Nodup →
      dget (buildScores people f) p.name dflt = f p := by
  have aux : ∀ (people : List Person) (d0 : List (String × Int)) (p : Person),
      p ∈ people → (people.map Person.name).Nodup →
      dget (people.foldl (fun d q => dset d q.name (f q)) d0) p.name dflt = f p := by
    intro people
    induction people with
    | nil => intro d0 p hp; cases hp
    | cons q t ih =>
      intro d0 p hp hnd
      simp only [List.map_cons, List.nodup_cons] at hnd
      simp only [List.foldl_cons]
      rcases List.mem_cons.mp hp with h | h
      · subst h
        rw [foldl_dset_skip f _ _ t _ hnd.1, dget_dset_self]
      · exact ih _ p h hnd.2
  intro people p hp hnd
  exact aux people [] p hp hnd

/-! ### Claim C5: which interest entries survive `Person.__post_init__` -/

/-- C5 counterexample: constructing a `Person` with an explicit zero-level
interest (`Person("A", {"x": 0})`) retains that entry — `__post_init__` only
removes `None` levels, so the constructed mapping does contain an entry whose
level is zero. -/
theorem C5_counterexample :
    (mkPerson "A" [("x", some 0)]).interests = [("x", 0)] ∧
    ¬ (∀ kv ∈ (mkPerson "A" [("x", some 0)]).interests, 0 < kv.2) := by
  constructor
  · rfl
  · intro h
    exact absurd (h ("x", 0) (by simp [mkPerson])) (by norm_num)

/-- C5 (amended): `Person.__post_init__` drops exactly the entries whose level
is null (`None`); every entry with a non-null integer level — including zero
and negative levels — is retained with its value unchanged. -/
theorem C5_person_construction (name : String) (raw : List (String × Option Int))
    (k : String) (v : Int) :
    (k, v) ∈ (mkPerson name raw).interests ↔ (k, some v) ∈ raw := by
  simp only [mkPerson, List.mem_filterMap]
  constructor
  · rintro ⟨⟨k', ov⟩, hmem, hf⟩
    simp only [Option.map_eq_some'] at hf
    obtain ⟨w, hw, heq⟩ := hf
    injection heq with hk hv
    subst hk
    subst hv
    rw [hw] at hmem
    exact hmem
  · intro h
    exact ⟨(k, some v), h, rfl⟩

/-! ### Claim C1: tie-breaking in the maximum-selection rules -/

/-- Translation of the code's selection key to arithmetic: key-`≤` is
"smaller value, or equal value and first character no earlier". -/
theorem keyVF_le_iff (x y : String × Int) :
    keyVF x ≤ keyVF y ↔ x.2 < y.2 ∨ (x.2 = y.2 ∧ ordFirst y.1 ≤ ordFirst x.1) := by
  rw [keyVF, keyVF, Prod.Lex.le_iff]
  simp [neg_le_neg_iff]

/-- Translation of the code's selection key to arithmetic, strict version. -/
theorem keyVF_lt_iff (x y : String × Int) :
    keyVF x < keyVF y ↔ x.2 < y.2 ∨ (x.2 = y.2 ∧ ordFirst y.1 < ordFirst x.1) := by
  rw [keyVF, keyVF, Prod.Lex.lt_iff]
  simp [neg_lt_neg_iff]

/-- C1 counterexample: on the interests dict `{"bb": 5, "ba": 5}` the code's
selection (`_find_largest_interest`, and the identical key in
`LargestInterestValueRule.score_round`) returns `"bb"`, while a max over the
key `(value, name)` favoring lexicographically earlier full names — what the
claim asserts — returns `"ba"`: names sharing a first character are NOT
compared beyond that character. -/
theorem C1_counterexample :
    find_largest_interest [("bb", 5), ("ba", 5)] = some ("bb", 5) ∧
    specLargestInterest [("bb", 5), ("ba", 5)] = some ("ba", 5) ∧
    (("bb", (5 : Int)) : String × Int) ≠ ("ba", 5) ∧
    (SRule.score_round .largestInterestValue [⟨"P", [("bb", 5), ("ba", 5)]⟩] [] []).2.1.interest
      = some "bb" := by
  refine ⟨by decide, by decide, by decide, by decide⟩

/-- C1 (amended): the shared selection of `_find_largest_interest`,
`LargestInterestValueRule`, `MostCommonInterestRule` and `EachPersonSpeaksRule`
maximises the key `(value, -ord(name[0]))`: the selected entry is in the dict,
its value is maximal, among value ties its FIRST character is alphabetically
minimal, and entries strictly before it in iteration order have strictly
smaller keys (so among full `(value, first-character)` ties the
earliest-inserted entry wins) — full names are never compared beyond their
first character.  The last four conjuncts tie the four call sites to this one
selection function. -/
theorem C1_tie_break_first_char :
    (∀ (l : List (String × Int)) (k : String) (v : Int),
      maxInterestByValue l = some (k, v) →
        (k, v) ∈ l ∧
        (∀ kv ∈ l, kv.2 < v ∨ (kv.2 = v ∧ ordFirst k ≤ ordFirst kv.1)) ∧
        ∃ l1 l2, l = l1 ++ (k, v) :: l2 ∧
          ∀ kv ∈ l1, kv.2 < v ∨ (kv.2 = v ∧ ordFirst k < ordFirst kv.1)) ∧
    (∀ interests, find_largest_interest interests = maxInterestByValue interests) ∧
    (∀ people discussed prev,
      (SRule.score_round .largestInterestValue people discussed prev).2.1.interest =
        (maxInterestByValue (collectInterestValues people discussed)).map Prod.fst) ∧
    (∀ flag people discussed prev,
      (SRule.score_round (.mostCommonInterest flag) people discussed prev).2.1.interest =
        (maxInterestByValue (collectInterestCounts people discussed flag)).map Prod.fst) ∧
    (∀ discussed p, epsScore discussed p =
      ((maxInterestByValue (availInterests p discussed)).map Prod.snd).getD 0) := by
  refine ⟨?_, fun _ => rfl, ?_, ?_, ?_⟩
  · intro l k v h
    cases l with
    | nil => simp [maxInterestByValue, pyMaxL] at h
    | cons a t =>
      have hr : pyMax keyVF a t = (k, v) := by
        simpa [maxInterestByValue, pyMaxL] using h
      refine ⟨hr ▸ pyMax_mem keyVF t a, ?_, ?_⟩
      · intro kv hkv
        have hle := pyMax_ge keyVF t a kv hkv
        rw [hr] at hle
        exact (keyVF_le_iff kv (k, v)).mp hle
      · obtain ⟨l1, l2, heq, hlt⟩ := pyMax_first keyVF t a
        rw [hr] at heq hlt
        exact ⟨l1, l2, heq, fun kv hkv => (keyVF_lt_iff kv (k, v)).mp (hlt kv hkv)⟩
  · intro people discussed prev
    cases h : maxInterestByValue (collectInterestValues people discussed) with
    | none => simp [SRule.score_round, h, Metadata.empty]
    | some mi => simp [SRule.score_round, h]
  · intro flag people discussed prev
    cases h : maxInterestByValue (collectInterestCounts people discussed flag) with
    | none => simp [SRule.score_round, mostCommonRound, h, Metadata.empty]
    | some mi => simp [SRule.score_round, mostCommonRound, h]
  · intro discussed p
    cases h : maxInterestByValue (availInterests p discussed) with
    | none => simp [epsScore, h]
    | some kv => simp [epsScore, h]

/-- Witness for C1 (amended) at the concrete dict `{"bb": 5, "ba": 5}`. -/
theorem C1_tie_break_first_char_witness :
    maxInterestByValue [("bb", 5), ("ba", 5)] = some ("bb", 5) ∧
    ((("bb", (5 : Int)) : String × Int) ∈ [("bb", 5), ("ba", 5)] ∧
      (∀ kv ∈ [(("bb" : String), (5 : Int)), ("ba", 5)],
        kv.2 < 5 ∨ (kv.2 = 5 ∧ ordFirst "bb" ≤ ordFirst kv.1)) ∧
      ∃ l1 l2, [(("bb" : String), (5 : Int)), ("ba", 5)] = l1 ++ ("bb", 5) :: l2 ∧
        ∀ kv ∈ l1, kv.2 < 5 ∨ (kv.2 = 5 ∧ ordFirst "bb" < ordFirst kv.1)) :=
  ⟨by decide, C1_tie_break_first_char.1 [("bb", 5), ("ba", 5)] "bb" 5 (by decide)⟩

/-! ### Claim C9: deserialization error behavior -/

/-- C9 counterexample: the unknown-type failure is a `ValueError` (the
repository defines no `ConfigurationError`), and a record whose `"type"` IS a
recognized variant name can still raise — `{"type": "SingleInterestRule"}`
without the `"interest"` field raises `KeyError`, refuting "for every record
whose type is a recognized variant name a rule is constructed without
raising". -/
theorem C9_counterexample :
    scoring_rule_from_dict { type := some "SingleInterestRule" } ⟨0⟩ ⟨["art"]⟩
      = .error (.keyError "interest") ∧
    "SingleInterestRule" ∈ recognizedRuleNames ∧
    scoring_rule_from_dict { type := some "Bogus" } ⟨0⟩ ⟨["art"]⟩
      = .error (.valueError "Unknown rule type: Bogus") := by
  refine ⟨rfl, by decide, rfl⟩

/-- C9 (amended): deserializing a record whose `"type"` is not a recognized
variant name is fatal — `scoring_rule_from_dict` raises a `ValueError` (the
repository has no `ConfigurationError`) rather than silently skipping the
rule; and every record whose `"type"` is recognized AND which carries the
variant's required fields (given a nonempty interest universe for
`SingleInterestRule`'s constructor) deserializes without raising. -/
theorem C9_unknown_rule_type_fatal :
    (∀ (data : RuleDict) (fresh : Fresh) (dp : DinnerPartyCtx),
      (∀ t, data.type = some t → t ∉ recognizedRuleNames) →
      ∃ msg, scoring_rule_from_dict data fresh dp = .error (.valueError msg)) ∧
    (∀ (data : RuleDict) (fresh : Fresh) (dp : DinnerPartyCtx) (t : String),
      data.type = some t → t ∈ recognizedRuleNames → requiredFieldsOk data →
      dp.all_interests ≠ [] →
      ∃ r, scoring_rule_from_dict data fresh dp = .ok r) := by
  constructor
  · intro data fresh dp h
    unfold scoring_rule_from_dict
    have n1 : data.type ≠ some "FewestInterestsLargestValueRule" := fun hh => h _ hh (by decide)
    have n2 : data.type ≠ some "FewestInterestsHostRule" := fun hh => h _ hh (by decide)
    have n3 : data.type ≠ some "NicheInterestsRule" := fun hh => h _ hh (by decide)
    have n4 : data.type ≠ some "WellRoundedInterestsRule" := fun hh => h _ hh (by decide)
    have n5 : data.type ≠ some "AlphabeticHostInterestRule" := fun hh => h _ hh (by decide)
    have n6 : data.type ≠ some "LargestInterestValueRule" := fun hh => h _ hh (by decide)
    have n7 : data.type ≠ some "EachPersonSpeaksRule" := fun hh => h _ hh (by decide)
    have n8 : data.type ≠ some "SingleInterestRule" := fun hh => h _ hh (by decide)
    have n9 : data.type ≠ some "MostCommonInterestRule" := fun hh => h _ hh (by decide)
    have n10 : data.type ≠ some "MostCommonInterestExceptPrevious" :=
      fun hh => h _ hh (by decide)
    rw [if_neg n1, if_neg n2, if_neg n3, if_neg n4, if_neg n5, if_neg n6, if_neg n7,
      if_neg n8, if_neg n9, if_neg n10]
    exact ⟨_, rfl⟩
  · intro data fresh dp t hty hmem hreq hne
    obtain ⟨a, rest, hai⟩ := List.exists_cons_of_ne_nil hne
    obtain ⟨h1, h2, h3, h4, h5⟩ := hreq
    fin_cases hmem
    · exact ⟨.fewestInterestsLargestValue, by simp [scoring_rule_from_dict, hty]⟩
    · obtain ⟨v, hv⟩ := Option.isSome_iff_exists.mp (h1 hty)
      exact ⟨.fewestInterestsHost v, by simp [scoring_rule_from_dict, hty, hv]⟩
    · obtain ⟨v, hv⟩ := Option.isSome_iff_exists.mp (h2 hty)
      exact ⟨.nicheInterests v, by simp [scoring_rule_from_dict, hty, hv]⟩
    · exact ⟨.wellRounded, by simp [scoring_rule_from_dict, hty]⟩
    · exact ⟨.alphabeticHostInterest, by simp [scoring_rule_from_dict, hty]⟩
    · exact ⟨.largestInterestValue, by simp [scoring_rule_from_dict, hty]⟩
    · exact ⟨.eachPersonSpeaks, by simp [scoring_rule_from_dict, hty]⟩
    · obtain ⟨v, hv⟩ := Option.isSome_iff_exists.mp (h3 hty)
      exact ⟨.singleInterest v, by simp [scoring_rule_from_dict, hty, hv, hai]⟩
    · obtain ⟨v, hv⟩ := Option.isSome_iff_exists.mp (h4 hty)
      exact ⟨.mostCommonInterest v, by simp [scoring_rule_from_dict, hty, hv]⟩
    · obtain ⟨v, hv⟩ := Option.isSome_iff_exists.mp (h5 hty)
      exact ⟨.mostCommonInterestExceptPrevious v, by simp [scoring_rule_from_dict, hty, hv]⟩

/-- Witness for C9 (amended): both branches at concrete records. -/
theorem C9_unknown_rule_type_fatal_witness :
    (∃ msg, scoring_rule_from_dict { type := some "Bogus" } ⟨0⟩ ⟨["art"]⟩
      = .error (.valueError msg)) ∧
    (∃ r, scoring_rule_from_dict { type := some "WellRoundedInterestsRule" } ⟨0⟩ ⟨["art"]⟩
      = .ok r) :=
  ⟨C9_unknown_rule_type_fatal.1 { type := some "Bogus" } ⟨0⟩ ⟨["art"]⟩
      (by intro t ht; cases ht; decide),
    C9_unknown_rule_type_fatal.2 { type := some "WellRoundedInterestsRule" } ⟨0⟩ ⟨["art"]⟩
      "WellRoundedInterestsRule" rfl (by decide) (by decide) (by decide)⟩

/-! ### Claim C3: round-trip serialization -/

/-- C3: for every rule instance `r`, deserializing `r.to_dict()` (with any
fresh constructor randomness, against any dinner party whose interest universe
is nonempty) succeeds and yields a rule scoring identically to `r` on every
guest list and round context — the randomized construction parameters are
restored from the record, never re-randomized. -/
theorem C3_roundtrip_serialization (r : SRule) (fresh : Fresh) (dp : DinnerPartyCtx)
    (h : dp.all_interests ≠ []) :
    ∃ r', scoring_rule_from_dict r.to_dict fresh dp = .ok r' ∧
      ∀ people discussed prev,
        r'.score_round people discussed prev = r.score_round people discussed prev := by
  obtain ⟨a, rest, hai⟩ := List.exists_cons_of_ne_nil h
  cases r with
  | fewestInterestsLargestValue =>
      exact ⟨.fewestInterestsLargestValue,
        by simp [scoring_rule_from_dict, SRule.to_dict], fun _ _ _ => rfl⟩
  | fewestInterestsHost ppi =>
      exact ⟨.fewestInterestsHost ppi,
        by simp [scoring_rule_from_dict, SRule.to_dict], fun _ _ _ => rfl⟩
  | nicheInterests bp =>
      exact ⟨.nicheInterests bp,
        by simp [scoring_rule_from_dict, SRule.to_dict], fun _ _ _ => rfl⟩
  | wellRounded =>
      exact ⟨.wellRounded,
        by simp [scoring_rule_from_dict, SRule.to_dict], fun _ _ _ => rfl⟩
  | alphabeticHostInterest =>
      exact ⟨.alphabeticHostInterest,
        by simp [scoring_rule_from_dict, SRule.to_dict], fun _ _ _ => rfl⟩
  | largestInterestValue =>
      exact ⟨.largestInterestValue,
        by simp [scoring_rule_from_dict, SRule.to_dict], fun _ _ _ => rfl⟩
  | eachPersonSpeaks =>
      exact ⟨.eachPersonSpeaks,
        by simp [scoring_rule_from_dict, SRule.to_dict], fun _ _ _ => rfl⟩
  | singleInterest i =>
      exact ⟨.singleInterest i,
        by simp [scoring_rule_from_dict, SRule.to_dict, hai], fun _ _ _ => rfl⟩
  | mostCommonInterest flag =>
      exact ⟨.mostCommonInterest flag,
        by simp [scoring_rule_from_dict, SRule.to_dict], fun _ _ _ => rfl⟩
  | mostCommonInterestExceptPrevious flag =>
      exact ⟨.mostCommonInterestExceptPrevious flag,
        by simp [scoring_rule_from_dict, SRule.to_dict], fun _ _ _ => rfl⟩

/-- Witness for C3 at a concrete randomized rule instance. -/
theorem C3_roundtrip_serialization_witness :
    (⟨["art", "cooking"]⟩ : DinnerPartyCtx).all_interests ≠ [] ∧
    ∃ r', scoring_rule_from_dict (SRule.to_dict (.singleInterest "cooking")) ⟨7⟩
        ⟨["art", "cooking"]⟩ = .ok r' ∧
      ∀ people discussed prev,
        r'.score_round people discussed prev
          = (SRule.singleInterest "cooking").score_round people discussed prev :=
  ⟨by decide, C3_roundtrip_serialization (.singleInterest "cooking") ⟨7⟩
    ⟨["art", "cooking"]⟩ (by decide)⟩

/-! ### Claim C8: `EachPersonSpeaksRule` -/

/-- C8: `EachPersonSpeaksRule.score_round` always returns empty metadata (so
the driver records nothing as discussed) and leaves `previous_hosts` alone;
each guest's score is their highest-valued undiscussed interest (`0` if none
remain); and on the roster {Alice: {cooking:5, art:2}, Bob: {cooking:3, art:2}}
with nothing discussed, Alice scores 5 and Bob scores 3. -/
theorem C8_each_person_speaks :
    (∀ people discussed prev,
      (SRule.score_round .eachPersonSpeaks people discussed prev).2.1 = Metadata.empty ∧
      (SRule.score_round .eachPersonSpeaks people discussed prev).2.2 = prev) ∧
    (∀ people discussed prev (p : Person), p ∈ people →
      (people.map Person.name).Nodup →
      (availInterests p discussed = [] →
        dget (SRule.score_round .eachPersonSpeaks people discussed prev).1 p.name 0 = 0) ∧
      (∀ kv ∈ availInterests p discussed,
        kv.2 ≤ dget (SRule.score_round .eachPersonSpeaks people discussed prev).1 p.name 0) ∧
      (availInterests p discussed ≠ [] →
        ∃ kv ∈ availInterests p discussed,
          dget (SRule.score_round .eachPersonSpeaks people discussed prev).1 p.name 0 = kv.2)) ∧
    (dget (SRule.score_round .eachPersonSpeaks
        [⟨"Alice", [("cooking", 5), ("art", 2)]⟩, ⟨"Bob", [("cooking", 3), ("art", 2)]⟩]
        [] []).1 "Alice" 0 = 5 ∧
      dget (SRule.score_round .eachPersonSpeaks
        [⟨"Alice", [("cooking", 5), ("art", 2)]⟩, ⟨"Bob", [("cooking", 3), ("art", 2)]⟩]
        [] []).1 "Bob" 0 = 3 ∧
      (SRule.score_round .eachPersonSpeaks
        [⟨"Alice", [("cooking", 5), ("art", 2)]⟩, ⟨"Bob", [("cooking", 3), ("art", 2)]⟩]
        [] []).2.1 = Metadata.empty) := by
  refine ⟨fun people discussed prev => ⟨rfl, rfl⟩, ?_, by decide, by decide, by decide⟩
  intro people discussed prev p hp hnd
  have hscore :
      dget (SRule.score_round .eachPersonSpeaks people discussed prev).1 p.name 0
        = epsScore discussed p := by
    exact dget_buildScores (epsScore discussed) 0 people p hp hnd
  refine ⟨?_, ?_, ?_⟩
  · intro he
    rw [hscore]
    simp [epsScore, maxInterestByValue, pyMaxL, he]
  · intro kv hkv
    rw [hscore]
    cases havail : availInterests p discussed with
    | nil => rw [havail] at hkv; cases hkv
    | cons c t =>
      have hle := pyMax_ge keyVF t c kv (havail ▸ hkv)
      have : epsScore discussed p = (pyMax keyVF c t).2 := by
        simp [epsScore, maxInterestByValue, pyMaxL, havail]
      rw [this]
      rcases (keyVF_le_iff kv (pyMax keyVF c t)).mp hle with h | h
      · exact le_of_lt h
      · exact le_of_eq h.1
  · intro hne
    rw [hscore]
    cases havail : availInterests p discussed with
    | nil => exact absurd havail hne
    | cons c t =>
      refine ⟨pyMax keyVF c t, havail ▸ pyMax_mem keyVF t c, ?_⟩
      simp [epsScore, maxInterestByValue, pyMaxL, havail]

/-- Witness for C8 at the concrete one-guest roster `[A: {x: 2}]`. -/
theorem C8_each_person_speaks_witness :
    ((⟨"A", [("x", 2)]⟩ : Person) ∈ [(⟨"A", [("x", 2)]⟩ : Person)] ∧
      (([(⟨"A", [("x", 2)]⟩ : Person)]).map Person.name).Nodup) ∧
    ((availInterests ⟨"A", [("x", 2)]⟩ [] = [] →
      dget (SRule.score_round .eachPersonSpeaks [⟨"A", [("x", 2)]⟩] [] []).1 "A" 0 = 0) ∧
    (∀ kv ∈ availInterests ⟨"A", [("x", 2)]⟩ [],
      kv.2 ≤ dget (SRule.score_round .eachPersonSpeaks [⟨"A", [("x", 2)]⟩] [] []).1 "A" 0) ∧
    (availInterests ⟨"A", [("x", 2)]⟩ [] ≠ [] →
      ∃ kv ∈ availInterests ⟨"A", [("x", 2)]⟩ [],
        dget (SRule.score_round .eachPersonSpeaks [⟨"A", [("x", 2)]⟩] [] []).1 "A" 0 = kv.2)) :=
  ⟨⟨by decide, by decide⟩,
    C8_each_person_speaks.2.1 [⟨"A", [("x", 2)]⟩] [] [] ⟨"A", [("x", 2)]⟩
      (by decide) (by decide)⟩

/-! ### Host selection: shared correctness lemma -/

/-- Characterization of the host-selection skeleton for a nonempty guest list:
it returns a host, the exclusion list is reset exactly when nobody is
available, the rule appends the host's name once, the host comes from the
available pool, and the host minimises the selection key over that pool. -/
theorem hostSelect_spec {K : Type} [LinearOrder K] (key : Person → K)
    (people : List Person) (prev : List String) (hne : people ≠ []) :
    ∃ host,
      hostSelect key people prev = some (host,
        (if (availableHosts people prev).isEmpty then [] else prev) ++ [host.name]) ∧
      host ∈ (if (availableHosts people prev).isEmpty then people
        else availableHosts people prev) ∧
      ∀ q ∈ (if (availableHosts people prev).isEmpty then people
        else availableHosts people prev), key host ≤ key q := by
  by_cases hE : (availableHosts people prev).isEmpty
  · obtain ⟨a, t, hpt⟩ := List.exists_cons_of_ne_nil hne
    subst hpt
    refine ⟨pyMin key a t, ?_, ?_, ?_⟩
    · simp [hostSelect, hE]
    · rw [if_pos hE]
      exact pyMin_mem key t a
    · rw [if_pos hE]
      exact fun q hq => pyMin_le key t a q hq
  · have havne : availableHosts people prev ≠ [] := by
      simpa [List.isEmpty_iff] using hE
    obtain ⟨a, t, hpt⟩ := List.exists_cons_of_ne_nil havne
    refine ⟨pyMin key a t, ?_, ?_, ?_⟩
    · simp [hostSelect, hpt]
    · rw [if_neg hE, hpt]
      exact pyMin_mem key t a
    · rw [if_neg hE, hpt]
      exact fun q hq => pyMin_le key t a q hq

/-- Whatever branch the host pool took, the host is one of the guests. -/
theorem host_mem_people (people : List Person) (prev : List String) (host : Person)
    (h : host ∈ (if (availableHosts people prev).isEmpty then people
      else availableHosts people prev)) : host ∈ people := by
  by_cases hE : (availableHosts people prev).isEmpty
  · rwa [if_pos hE] at h
  · rw [if_neg hE] at h
    exact (List.mem_filter.mp h).1

/-- A guest shares every one of their own (distinct) interests with themself. -/
theorem sharedCount_self (h : Person) : sharedCount h h = (keysOf h).dedup.length := by
  unfold sharedCount
  rw [List.filter_eq_self.mpr]
  intro k hk
  exact List.elem_eq_true_of_mem (List.mem_dedup.mp hk)

/-! ### Claim C4: `AlphabeticHostInterestRule` -/

/-- C4 counterexample: on the single-guest roster `[Alice: {art: 3}]`, Alice is
chosen as host and scores `2` from this rule (2 points for the interest she
"shares" with herself), not `0` — the scoring loop does not exclude the host. -/
theorem C4_counterexample :
    (SRule.score_round .alphabeticHostInterest [⟨"Alice", [("art", 3)]⟩] [] []).2.1.host
      = some "Alice" ∧
    dget (SRule.score_round .alphabeticHostInterest [⟨"Alice", [("art", 3)]⟩] [] []).1
      "Alice" 0 = 2 ∧
    (2 : Int) ≠ 0 := by
  refine ⟨by decide, by decide, by decide⟩

/-- C4 (amended): for a nonempty guest list, `AlphabeticHostInterestRule`
chooses as host the alphabetically earliest guest not yet in `previous_hosts`
(resetting the exclusion list when every guest has hosted), reports the host
in metadata, and EVERY guest — the host included — scores exactly 2 points per
interest shared with the host; in particular the host scores 2 × (number of
their own interests), not 0. -/
theorem C4_alphabetic_host (people : List Person) (discussed prev : List String)
    (hne : people ≠ []) (hnd : (people.map Person.name).Nodup) :
    ∃ host,
      (SRule.score_round .alphabeticHostInterest people discussed prev).2.1.host
        = some host.name ∧
      host ∈ (if (availableHosts people prev).isEmpty then people
        else availableHosts people prev) ∧
      (∀ q ∈ (if (availableHosts people prev).isEmpty then people
        else availableHosts people prev), keyAlpha host ≤ keyAlpha q) ∧
      (∀ p ∈ people,
        dget (SRule.score_round .alphabeticHostInterest people discussed prev).1 p.name 0
          = 2 * (sharedCount p host : Int)) ∧
      dget (SRule.score_round .alphabeticHostInterest people discussed prev).1 host.name 0
        = 2 * ((keysOf host).dedup.length : Int) := by
  obtain ⟨host, hsel, hmem, hdom⟩ := hostSelect_spec keyAlpha people prev hne
  have hscores : ∀ p ∈ people,
      dget (SRule.score_round .alphabeticHostInterest people discussed prev).1 p.name 0
        = 2 * (sharedCount p host : Int) := by
    intro p hp
    simp only [SRule.score_round, hsel]
    exact dget_buildScores (fun q => 2 * (sharedCount q host : Int)) 0 people p hp hnd
  refine ⟨host, ?_, hmem, hdom, hscores, ?_⟩
  · simp only [SRule.score_round, hsel]
  · rw [hscores host (host_mem_people people prev host hmem), sharedCount_self]

/-- Witness for C4 (amended) at the roster `[Alice: {art: 3}, Bob: {art: 1}]`. -/
theorem C4_alphabetic_host_witness :
    ([(⟨"Alice", [("art", 3)]⟩ : Person), ⟨"Bob", [("art", 1)]⟩] ≠ [] ∧
      (([(⟨"Alice", [("art", 3)]⟩ : Person), ⟨"Bob", [("art", 1)]⟩]).map Person.name).Nodup) ∧
    ∃ host,
      (SRule.score_round .alphabeticHostInterest
        [⟨"Alice", [("art", 3)]⟩, ⟨"Bob", [("art", 1)]⟩] [] []).2.1.host = some host.name ∧
      host ∈ (if (availableHosts [⟨"Alice", [("art", 3)]⟩, ⟨"Bob", [("art", 1)]⟩] []).isEmpty
        then [(⟨"Alice", [("art", 3)]⟩ : Person), ⟨"Bob", [("art", 1)]⟩]
        else availableHosts [⟨"Alice", [("art", 3)]⟩, ⟨"Bob", [("art", 1)]⟩] []) ∧
      (∀ q ∈ (if (availableHosts [⟨"Alice", [("art", 3)]⟩, ⟨"Bob", [("art", 1)]⟩] []).isEmpty
        then [(⟨"Alice", [("art", 3)]⟩ : Person), ⟨"Bob", [("art", 1)]⟩]
        else availableHosts [⟨"Alice", [("art", 3)]⟩, ⟨"Bob", [("art", 1)]⟩] []),
        keyAlpha host ≤ keyAlpha q) ∧
      (∀ p ∈ [(⟨"Alice", [("art", 3)]⟩ : Person), ⟨"Bob", [("art", 1)]⟩],
        dget (SRule.score_round .alphabeticHostInterest
          [⟨"Alice", [("art", 3)]⟩, ⟨"Bob", [("art", 1)]⟩] [] []).1 p.name 0
          = 2 * (sharedCount p host : Int)) ∧
      dget (SRule.score_round .alphabeticHostInterest
        [⟨"Alice", [("art", 3)]⟩, ⟨"Bob", [("art", 1)]⟩] [] []).1 host.name 0
        = 2 * ((keysOf host).dedup.length : Int) :=
  ⟨⟨by decide, by decide⟩,
    C4_alphabetic_host [⟨"Alice", [("art", 3)]⟩, ⟨"Bob", [("art", 1)]⟩] [] []
      (by decide) (by decide)⟩

/-! ### Claim C10: hosts are appended to `previous_hosts` twice -/

/-- `_find_largest_interest` returns `None` exactly on an empty interests dict. -/
theorem find_largest_interest_eq_none (l : List (String × Int)) :
    find_largest_interest l = none ↔ l = [] := by
  cases l <;> simp [find_largest_interest, maxInterestByValue, pyMaxL]

/-- C10 counterexample: a host-assigning round does NOT always append the host
twice — `FewestInterestsLargestValueRule` with an interest-less host (who is
selected, having fewest interests) returns early with empty metadata, so only
the rule's own append happens and the driver adds nothing: one entry, not two. -/
theorem C10_counterexample :
    (driverStep [⟨"A", []⟩]
      { scoring_complexity := 0, rules := [.fewestInterestsLargestValue] }
      .fewestInterestsLargestValue).previous_hosts = ["A"] ∧
    ((driverStep [⟨"A", []⟩]
      { scoring_complexity := 0, rules := [.fewestInterestsLargestValue] }
      .fewestInterestsLargestValue).previous_hosts).count "A" = 1 ∧
    (1 : Nat) ≠ 2 := by
  refine ⟨by decide, by decide, by decide⟩

/-- C10 (amended): in a driver round whose rule REPORTS a host in metadata,
the host's name is appended to `previous_hosts` twice — once by the rule
inside `score_round` and once by the driver on seeing the `"host"` key; the
single exception is `FewestInterestsLargestValueRule` selecting a host with no
interests, which appends the host once (rule only) and reports no metadata.
Host exclusion is unaffected by the duplicates either way: membership in the
new `previous_hosts` is membership in the (possibly reset) old list or being
the host. -/
theorem C10_host_double_append (r : SRule) (people : List Person) (gs : GameScoring)
    (hr : isHostRule r = true) (hne : people ≠ []) :
    ∃ host : Person,
      host ∈ people ∧
      ((r.score_round people gs.discussed_interests gs.previous_hosts).2.1.host
          = some host.name →
        (driverStep people gs r).previous_hosts =
          (if (availableHosts people gs.previous_hosts).isEmpty then ([] : List String)
            else gs.previous_hosts) ++ [host.name, host.name]) ∧
      ((r.score_round people gs.discussed_interests gs.previous_hosts).2.1.host = none →
        (driverStep people gs r).previous_hosts =
          (if (availableHosts people gs.previous_hosts).isEmpty then ([] : List String)
            else gs.previous_hosts) ++ [host.name] ∧
        r = .fewestInterestsLargestValue ∧ host.interests = []) ∧
      (∀ x, x ∈ (driverStep people gs r).previous_hosts ↔
        (x ∈ (if (availableHosts people gs.previous_hosts).isEmpty then ([] : List String)
          else gs.previous_hosts) ∨ x = host.name)) := by
  cases r with
  | alphabeticHostInterest =>
    obtain ⟨host, hsel, hmem, _⟩ := hostSelect_spec keyAlpha people gs.previous_hosts hne
    refine ⟨host, host_mem_people _ _ _ hmem, ?_, ?_, ?_⟩
    · intro _
      simp only [driverStep, SRule.score_round, hsel]
      simp [List.append_assoc]
    · intro hnone
      simp only [SRule.score_round, hsel] at hnone
      cases hnone
    · intro x
      simp only [driverStep, SRule.score_round, hsel]
      simp [or_comm]
  | fewestInterestsHost ppi =>
    obtain ⟨host, hsel, hmem, _⟩ := hostSelect_spec keyFewest people gs.previous_hosts hne
    refine ⟨host, host_mem_people _ _ _ hmem, ?_, ?_, ?_⟩
    · intro _
      simp only [driverStep, SRule.score_round, hsel]
      simp [List.append_assoc]
    · intro hnone
      simp only [SRule.score_round, hsel] at hnone
      cases hnone
    · intro x
      simp only [driverStep, SRule.score_round, hsel]
      simp [or_comm]
  | fewestInterestsLargestValue =>
    obtain ⟨host, hsel, hmem, _⟩ := hostSelect_spec keyFewest people gs.previous_hosts hne
    refine ⟨host, host_mem_people _ _ _ hmem, ?_, ?_, ?_⟩
    · intro hsome
      cases hfi : find_largest_interest host.interests with
      | none =>
        simp only [SRule.score_round, hsel, hfi] at hsome
        cases hsome
      | some mi =>
        simp only [driverStep, SRule.score_round, hsel, hfi]
        simp [List.append_assoc]
    · intro hnone
      cases hfi : find_largest_interest host.interests with
      | none =>
        refine ⟨?_, rfl, (find_largest_interest_eq_none host.interests).mp hfi⟩
        simp only [driverStep, SRule.score_round, hsel, hfi]
        simp [Metadata.empty]
      | some mi =>
        simp only [SRule.score_round, hsel, hfi] at hnone
        cases hnone
    · intro x
      cases hfi : find_largest_interest host.interests with
      | none =>
        simp only [driverStep, SRule.score_round, hsel, hfi]
        simp [Metadata.empty, or_comm]
      | some mi =>
        simp only [driverStep, SRule.score_round, hsel, hfi]
        simp [or_comm]
  | nicheInterests bp => simp [isHostRule] at hr
  | wellRounded => simp [isHostRule] at hr
  | largestInterestValue => simp [isHostRule] at hr
  | eachPersonSpeaks => simp [isHostRule] at hr
  | singleInterest i => simp [isHostRule] at hr
  | mostCommonInterest flag => simp [isHostRule] at hr
  | mostCommonInterestExceptPrevious flag => simp [isHostRule] at hr

/-- Witness for C10 (amended) at a concrete host round. -/
theorem C10_host_double_append_witness :
    (isHostRule .alphabeticHostInterest = true ∧
      [(⟨"A", [("x", 1)]⟩ : Person)] ≠ []) ∧
    ∃ host : Person,
      host ∈ [(⟨"A", [("x", 1)]⟩ : Person)] ∧
      ((SRule.score_round .alphabeticHostInterest [⟨"A", [("x", 1)]⟩]
          ({ scoring_complexity := 3, rules := [.alphabeticHostInterest] } :
            GameScoring).discussed_interests
          ({ scoring_complexity := 3, rules := [.alphabeticHostInterest] } :
            GameScoring).previous_hosts).2.1.host = some host.name →
        (driverStep [⟨"A", [("x", 1)]⟩]
          { scoring_complexity := 3, rules := [.alphabeticHostInterest] }
          .alphabeticHostInterest).previous_hosts =
          (if (availableHosts [⟨"A", [("x", 1)]⟩]
            ({ scoring_complexity := 3, rules := [.alphabeticHostInterest] } :
              GameScoring).previous_hosts).isEmpty then ([] : List String)
            else ({ scoring_complexity := 3, rules := [.alphabeticHostInterest] } :
              GameScoring).previous_hosts) ++ [host.name, host.name]) ∧
      ((SRule.score_round .alphabeticHostInterest [⟨"A", [("x", 1)]⟩]
          ({ scoring_complexity := 3, rules := [.alphabeticHostInterest] } :
            GameScoring).discussed_interests
          ({ scoring_complexity := 3, rules := [.alphabeticHostInterest] } :
            GameScoring).previous_hosts).2.1.host = none →
        (driverStep [⟨"A", [("x", 1)]⟩]
          { scoring_complexity := 3, rules := [.alphabeticHostInterest] }
          .alphabeticHostInterest).previous_hosts =
          (if (availableHosts [⟨"A", [("x", 1)]⟩]
            ({ scoring_complexity := 3, rules := [.alphabeticHostInterest] } :
              GameScoring).previous_hosts).isEmpty then ([] : List String)
            else ({ scoring_complexity := 3, rules := [.alphabeticHostInterest] } :
              GameScoring).previous_hosts) ++ [host.name] ∧
        SRule.alphabeticHostInterest = .fewestInterestsLargestValue ∧
        host.interests = []) ∧
      (∀ x, x ∈ (driverStep [⟨"A", [("x", 1)]⟩]
          { scoring_complexity := 3, rules := [.alphabeticHostInterest] }
          .alphabeticHostInterest).previous_hosts ↔
        (x ∈ (if (availableHosts [⟨"A", [("x", 1)]⟩]
          ({ scoring_complexity := 3, rules := [.alphabeticHostInterest] } :
            GameScoring).previous_hosts).isEmpty then ([] : List String)
          else ({ scoring_complexity := 3, rules := [.alphabeticHostInterest] } :
            GameScoring).previous_hosts) ∨ x = host.name)) :=
  ⟨⟨rfl, by decide⟩,
    C10_host_double_append .alphabeticHostInterest [⟨"A", [("x", 1)]⟩]
      { scoring_complexity := 3, rules := [.alphabeticHostInterest] } rfl (by decide)⟩

/-! ### Claim C2: `score_all_rounds` is pure under the reset discipline -/

/-- A driver round rewrites only the mutable context fields: the rule list and
the declared complexity survive untouched. -/
theorem driverStep_preserve (people : List Person) (gs : GameScoring) (r : SRule) :
    (driverStep people gs r).rules = gs.rules ∧
    (driverStep people gs r).scoring_complexity = gs.scoring_complexity :=
  ⟨rfl, rfl⟩

/-- Folding any number of driver rounds preserves the rule list and the
declared complexity. -/
theorem foldl_driverStep_preserve (people : List Person) :
    ∀ (rs : List SRule) (gs : GameScoring),
      (rs.foldl (driverStep people) gs).rules = gs.rules ∧
      (rs.foldl (driverStep people) gs).scoring_complexity = gs.scoring_complexity := by
  intro rs
  induction rs with
  | nil => intro gs; exact ⟨rfl, rfl⟩
  | cons r t ih =>
    intro gs
    simp only [List.foldl_cons]
    obtain ⟨h1, h2⟩ := ih (driverStep people gs r)
    exact ⟨h1.trans (driverStep_preserve people gs r).1,
      h2.trans (driverStep_preserve people gs r).2⟩

/-- The state returned by `score_all_rounds` resets to the same state the
input does. -/
theorem scoreAllRounds_state_reset (gs : GameScoring) (people : List Person) :
    (scoreAllRounds gs people).2.reset = gs.reset := by
  show ((gs.reset.rules.foldl (driverStep people) gs.reset).reset).reset = gs.reset
  obtain ⟨h1, h2⟩ := foldl_driverStep_preserve people gs.reset.rules gs.reset
  calc ((gs.reset.rules.foldl (driverStep people) gs.reset).reset).reset
      = { scoring_complexity :=
            (gs.reset.rules.foldl (driverStep people) gs.reset).scoring_complexity,
          rules := (gs.reset.rules.foldl (driverStep people) gs.reset).rules,
          discussed_interests := [], previous_hosts := [], current_round := 0,
          scores := [] } := rfl
    _ = { scoring_complexity := gs.scoring_complexity, rules := gs.rules,
          discussed_interests := [], previous_hosts := [], current_round := 0,
          scores := [] } := by rw [h1, h2]; rfl
    _ = gs.reset := rfl

/-- C2: for a fixed guest list and a fixed `GameScoring` (rule-internal
parameters fixed at construction), `score_all_rounds` is pure: the state it
returns has `discussed_interests`, `previous_hosts`, `scores` and
`current_round` all reset, and calling it again on that state reproduces the
identical total (and state) — no scoring state leaks between the two calls. -/
theorem C2_score_all_rounds_pure (gs : GameScoring) (people : List Person) :
    scoreAllRounds (scoreAllRounds gs people).2 people = scoreAllRounds gs people ∧
    (scoreAllRounds gs people).2.discussed_interests = [] ∧
    (scoreAllRounds gs people).2.previous_hosts = [] ∧
    (scoreAllRounds gs people).2.scores = [] ∧
    (scoreAllRounds gs people).2.current_round = 0 := by
  have hkey : ∀ g g' : GameScoring, g.reset = g'.reset →
      scoreAllRounds g people = scoreAllRounds g' people := by
    intro g g' h
    unfold scoreAllRounds
    rw [h]
  exact ⟨hkey _ _ (scoreAllRounds_state_reset gs people), rfl, rfl, rfl, rfl⟩

/-! ### Claim C6: the composer exhausts the complexity budget -/

theorem getD_mem {α : Type} :
    ∀ (l : List α) (i : Nat) (d : α), i < l.length → l.getD i d ∈ l := by
  intro l
  induction l with
  | nil => intro i d h; simp at h
  | cons a t ih =>
    intro i d h
    cases i with
    | zero => simp [List.getD_cons_zero]
    | succ n =>
      rw [List.getD_cons_succ]
      exact List.mem_cons_of_mem _ (ih n d (Nat.succ_lt_succ_iff.mp (by simpa using h)))

/-- With a nonempty interest universe, constructing an instance of any drawn
rule class succeeds, and the instance has its class's complexity rating. -/
theorem mkRuleInstance_some (t : RuleTag) (d : Nat) (allInterests : List String)
    (hne : allInterests ≠ []) :
    ∃ r, mkRuleInstance t d allInterests = some r ∧ r.get_cr = crT t := by
  obtain ⟨a, rest, hai⟩ := List.exists_cons_of_ne_nil hne
  cases t <;> simp [mkRuleInstance, SRule.get_cr, crT, hai]

/-- `EachPersonSpeaksRule` (CR 1) is a candidate whenever any budget remains:
it fits every nonzero budget and is not the class excluded on round one. -/
theorem eps_mem_possibleRules (remaining : Nat) (rules : List SRule) (h : remaining ≠ 0) :
    RuleTag.eachPersonSpeaks ∈ possibleRules remaining rules := by
  have h1 : 1 ≤ remaining := Nat.one_le_iff_ne_zero.mpr h
  unfold possibleRules
  by_cases hr : rules.isEmpty
  · simp [hr, List.mem_filter, ALL_RULES, crT, h1]
  · simp [hr, List.mem_filter, ALL_RULES, crT, h1]

/-- Every candidate's complexity rating fits the remaining budget. -/
theorem possibleRules_cr (remaining : Nat) (rules : List SRule) (t : RuleTag)
    (h : t ∈ possibleRules remaining rules) : crT t ≤ remaining := by
  unfold possibleRules at h
  by_cases hr : rules.isEmpty
  · rw [if_pos hr] at h
    have h2 := List.mem_filter.mp (List.mem_filter.mp h).1
    exact of_decide_eq_true h2.2
  · rw [if_neg hr] at h
    exact of_decide_eq_true (List.mem_filter.mp h).2

/-- Invariant of the composer loop: with a nonempty interest universe it never
fails, and the chosen rules' CRs always absorb the remaining budget exactly
(a CR-1 candidate exists at every step, so the `no candidate fits` break is
never taken). -/
theorem composeLoop_sum (oracle : Nat → Nat × Nat) (allInterests : List String)
    (hne : allInterests ≠ []) :
    ∀ (remaining step : Nat) (rules : List SRule),
      ∃ rs, composeLoop oracle allInterests remaining step rules = some rs ∧
        (rs.map SRule.get_cr).sum = (rules.map SRule.get_cr).sum + remaining := by
  intro remaining
  induction remaining using Nat.strong_induction_on with
  | _ remaining ih =>
    intro step rules
    by_cases h0 : remaining = 0
    · subst h0
      exact ⟨rules, by rw [composeLoop]; simp, by simp⟩
    · cases hposs : possibleRules remaining rules with
      | nil =>
        exact absurd (eps_mem_possibleRules remaining rules h0) (by rw [hposs]; simp)
      | cons a rest =>
        have hlen : (oracle step).1 % (a :: rest).length < (a :: rest).length :=
          Nat.mod_lt _ (by simp)
        have hchosen : (a :: rest).getD ((oracle step).1 % (a :: rest).length) a
            ∈ possibleRules remaining rules := by
          rw [hposs]; exact getD_mem _ _ _ hlen
        set chosen := (a :: rest).getD ((oracle step).1 % (a :: rest).length) a with hch
        have hcr : crT chosen ≤ remaining := possibleRules_cr _ _ _ hchosen
        obtain ⟨rule, hmk, hruleCr⟩ :=
          mkRuleInstance_some chosen (oracle step).2 allInterests hne
        obtain ⟨rs, hloop, hsum⟩ :=
          ih (remaining - crT chosen)
            (Nat.sub_lt (Nat.pos_of_ne_zero h0) (crT_pos chosen))
            (step + 1) (rules ++ [rule])
        refine ⟨rs, ?_, ?_⟩
        · rw [composeLoop]
          rw [dif_neg h0, hposs]
          simp only [← hch, hmk]
          exact hloop
        · rw [hsum, List.map_append, List.sum_append]
          simp [hruleCr]
          omega

/-- C6: for every target budget `points ≥ 1` and every outcome of the weighted
draws (modelled by the oracle), `random_scoring_rules` returns a `GameScoring`
whose rules' complexity ratings sum to at most `points` — and in fact exactly
to `points`, since each chosen rule's CR fits the remaining budget at the
moment it is chosen and a CR-1 rule is always a candidate, so the loop runs
the budget down to 0. -/
theorem C6_composer_budget (points : Nat) (oracle : Nat → Nat × Nat)
    (dinner_party : DinnerPartyCtx) (h1 : dinner_party.all_interests ≠ [])
    (h2 : 1 ≤ points) :
    ∃ g, random_scoring_rules points oracle dinner_party = some g ∧
      (g.rules.map SRule.get_cr).sum ≤ points ∧
      (g.rules.map SRule.get_cr).sum = points := by
  obtain ⟨rs, hloop, hsum⟩ := composeLoop_sum oracle dinner_party.all_interests h1 points 0 []
  simp only [List.map_nil, List.sum_nil, Nat.zero_add] at hsum
  refine ⟨{ scoring_complexity := (points : Int), rules := rs }, ?_, ?_, ?_⟩
  · simp [random_scoring_rules, hloop]
  · exact le_of_eq hsum
  · exact hsum

/-- Witness for C6 with budget 10 and a concrete oracle. -/
theorem C6_composer_budget_witness :
    ((⟨["art"]⟩ : DinnerPartyCtx).all_interests ≠ [] ∧ (1 : Nat) ≤ 10) ∧
    ∃ g, random_scoring_rules 10 (fun n => (n * 7 + 3, n)) ⟨["art"]⟩ = some g ∧
      (g.rules.map SRule.get_cr).sum ≤ 10 ∧
      (g.rules.map SRule.get_cr).sum = 10 :=
  ⟨⟨by decide, by decide⟩,
    C6_composer_budget 10 (fun n => (n * 7 + 3, n)) ⟨["art"]⟩ (by decide) (by decide)⟩

/-! ### Claim C7: host rotation across host-assigning rounds -/

/-- The instrumented driver fold computes exactly the driver fold. -/
theorem driverTraceAux_snd (people : List Person) :
    ∀ (rs : List SRule) (gs : GameScoring),
      (driverTraceAux people rs gs).2 = rs.foldl (driverStep people) gs := by
  intro rs
  induction rs with
  | nil => intro gs; rfl
  | cons r t ih =>
    intro gs
    simp only [driverTraceAux, List.foldl_cons]
    cases hinfo : (selectedHost r people gs.previous_hosts).map
        (fun h => (h.name, (availableHosts people gs.previous_hosts).isEmpty)) with
    | none => simp [hinfo, ih]
    | some hb => simp [hinfo, ih]

/-- One host round, seen through `previous_hosts`: a host is selected from the
available pool (everyone, after a reset), and afterwards a name is in
`previous_hosts` iff it was there before the round (no reset) or it is the
host's name. -/
theorem hostStep_spec (r : SRule) (people : List Person) (gs : GameScoring)
    (hr : isHostRule r = true) (hne : people ≠ []) :
    ∃ host,
      selectedHost r people gs.previous_hosts = some host ∧
      host ∈ (if (availableHosts people gs.previous_hosts).isEmpty then people
        else availableHosts people gs.previous_hosts) ∧
      (∀ x, x ∈ (driverStep people gs r).previous_hosts ↔
        (x ∈ (if (availableHosts people gs.previous_hosts).isEmpty then ([] : List String)
          else gs.previous_hosts) ∨ x = host.name)) := by
  cases r with
  | alphabeticHostInterest =>
    obtain ⟨host, hsel, hmem, _⟩ := hostSelect_spec keyAlpha people gs.previous_hosts hne
    refine ⟨host, by simp [selectedHost, hsel], hmem, ?_⟩
    intro x
    simp only [driverStep, SRule.score_round, hsel]
    simp [or_comm]
  | fewestInterestsHost ppi =>
    obtain ⟨host, hsel, hmem, _⟩ := hostSelect_spec keyFewest people gs.previous_hosts hne
    refine ⟨host, by simp [selectedHost, hsel], hmem, ?_⟩
    intro x
    simp only [driverStep, SRule.score_round, hsel]
    simp [or_comm]
  | fewestInterestsLargestValue =>
    obtain ⟨host, hsel, hmem, _⟩ := hostSelect_spec keyFewest people gs.previous_hosts hne
    refine ⟨host, by simp [selectedHost, hsel], hmem, ?_⟩
    intro x
    cases hfi : find_largest_interest host.interests with
    | none =>
      simp only [driverStep, SRule.score_round, hsel, hfi]
      simp [Metadata.empty, or_comm]
    | some mi =>
      simp only [driverStep, SRule.score_round, hsel, hfi]
      simp [or_comm]
  | nicheInterests bp => simp [isHostRule] at hr
  | wellRounded => simp [isHostRule] at hr
  | largestInterestValue => simp [isHostRule] at hr
  | eachPersonSpeaks => simp [isHostRule] at hr
  | singleInterest i => simp [isHostRule] at hr
  | mostCommonInterest flag => simp [isHostRule] at hr
  | mostCommonInterestExceptPrevious flag => simp [isHostRule] at hr

/-- An exhausted host pool means every guest's name is already in
`previous_hosts`. -/
theorem availableHosts_isEmpty (people : List Person) (prev : List String)
    (hE : (availableHosts people prev).isEmpty = true) :
    ∀ p ∈ people, p.name ∈ prev := by
  intro p hp
  have h0 : availableHosts people prev = [] := List.isEmpty_iff.mp hE
  have := (List.filter_eq_nil_iff.mp h0) p hp
  simpa [List.elem_iff] using this

/-- A guest in the available pool has not hosted in the current rotation. -/
theorem availableHosts_not_prev (people : List Person) (prev : List String)
    (host : Person) (h : host ∈ availableHosts people prev) : host.name ∉ prev := by
  have := (List.mem_filter.mp h).2
  simpa [List.elem_iff] using this

/-- Invariant form of host rotation: running any sequence of host-assigning
rounds from a state whose `previous_hosts` holds (as a set) exactly the hosts
of the currently open rotation segment, every closed segment is a permutation
of the guest names and the open segment is a duplicate-free list of guest
names. -/
theorem hostRotation_aux (people : List Person) (hne : people ≠ [])
    (hnd : (people.map Person.name).Nodup) :
    ∀ (rs : List SRule) (gs : GameScoring) (cur : List String),
      (∀ r ∈ rs, isHostRule r = true) →
      cur.Nodup → cur ⊆ people.map Person.name →
      (∀ x, x ∈ gs.previous_hosts ↔ x ∈ cur) →
      (∀ seg ∈ (splitSegments (driverTraceAux people rs gs).1 cur).1,
        seg.Perm (people.map Person.name)) ∧
      (splitSegments (driverTraceAux people rs gs).1 cur).2.Nodup ∧
      (splitSegments (driverTraceAux people rs gs).1 cur).2 ⊆ people.map Person.name := by
  intro rs
  induction rs with
  | nil =>
    intro gs cur _ hcn hcs _
    exact ⟨by simp [driverTraceAux, splitSegments], hcn, hcs⟩
  | cons r rs' ih =>
    intro gs cur hall hcn hcs hinv
    have hr : isHostRule r = true := hall r (List.mem_cons_self r rs')
    obtain ⟨host, hsel, hmem, hstep⟩ := hostStep_spec r people gs hr hne
    have hall' : ∀ q ∈ rs', isHostRule q = true :=
      fun q hq => hall q (List.mem_cons_of_mem r hq)
    have htr : (driverTraceAux people (r :: rs') gs).1 =
        (host.name, (availableHosts people gs.previous_hosts).isEmpty) ::
          (driverTraceAux people rs' (driverStep people gs r)).1 := by
      simp [driverTraceAux, hsel]
    by_cases hE : (availableHosts people gs.previous_hosts).isEmpty
    · -- reset round: the closed segment covers everyone
      have hcover : ∀ p ∈ people, p.name ∈ cur :=
        fun p hp => (hinv p.name).mp (availableHosts_isEmpty people gs.previous_hosts hE p hp)
      have hperm : cur.Perm (people.map Person.name) := by
        rw [List.perm_ext_iff_of_nodup hcn hnd]
        intro x
        constructor
        · exact fun hx => hcs hx
        · intro hx
          obtain ⟨p, hp, hpx⟩ := List.mem_map.mp hx
          exact hpx ▸ hcover p hp
      have hhostp : host ∈ people := by rwa [if_pos hE] at hmem
      have hsplit : splitSegments (driverTraceAux people (r :: rs') gs).1 cur =
          (cur :: (splitSegments (driverTraceAux people rs'
              (driverStep people gs r)).1 [host.name]).1,
            (splitSegments (driverTraceAux people rs'
              (driverStep people gs r)).1 [host.name]).2) := by
        rw [htr]
        simp [splitSegments, hE]
      obtain ⟨hsegs, hlast, hlasts⟩ := ih (driverStep people gs r) [host.name] hall'
        (List.nodup_singleton _)
        (by
          intro x hx
          rw [List.mem_singleton.mp hx]
          exact List.mem_map.mpr ⟨host, hhostp, rfl⟩)
        (by
          intro x
          rw [hstep x, if_pos hE]
          simp)
      rw [hsplit]
      refine ⟨?_, hlast, hlasts⟩
      intro seg hseg
      rcases List.mem_cons.mp hseg with h | h
      · rw [h]; exact hperm
      · exact hsegs seg h
    · -- ordinary round: the host extends the open segment without repetition
      have hhosta : host ∈ availableHosts people gs.previous_hosts := by
        rwa [if_neg hE] at hmem
      have hhostp : host ∈ people := (List.mem_filter.mp hhosta).1
      have hnotprev : host.name ∉ gs.previous_hosts :=
        availableHosts_not_prev people gs.previous_hosts host hhosta
      have hnotcur : host.name ∉ cur := fun hc => hnotprev ((hinv host.name).mpr hc)
      have hsplit : splitSegments (driverTraceAux people (r :: rs') gs).1 cur =
          splitSegments (driverTraceAux people rs'
            (driverStep people gs r)).1 (cur ++ [host.name]) := by
        rw [htr]
        simp [splitSegments, hE]
      rw [hsplit]
      exact ih (driverStep people gs r) (cur ++ [host.name]) hall'
        (by
          rw [List.nodup_append]
          exact ⟨hcn, List.nodup_singleton _,
            by simpa [List.disjoint_singleton] using hnotcur⟩)
        (by
          intro x hx
          rcases List.mem_append.mp hx with h | h
          · exact hcs h
          · rw [List.mem_singleton.mp h]
            exact List.mem_map.mpr ⟨host, hhostp, rfl⟩)
        (by
          intro x
          rw [hstep x, if_neg hE]
          simp [hinv x])

/-- C7: within one scoring pass (driver fold from the reset state) over a
nonempty guest list with distinct names, a sequence of host-assigning rounds
(`AlphabeticHostInterestRule`, `FewestInterestsHostRule`,
`FewestInterestsLargestValueRule`) produces a host sequence that splits at the
resets into segments: every completed segment is a permutation of the guest
names — no guest hosts a second time until every guest has hosted once — and
the still-open segment has no repeated host; once all guests have hosted, the
exclusion list resets and the rotation starts over with the next host.  The
first conjunct identifies the instrumented fold with the actual driver fold of
`score_all_rounds`. -/
theorem C7_host_rotation (gs : GameScoring) (people : List Person)
    (hne : people ≠ []) (hnd : (people.map Person.name).Nodup)
    (hhost : ∀ r ∈ gs.rules, isHostRule r = true) :
    (driverTraceAux people gs.rules gs.reset).2
        = gs.rules.foldl (driverStep people) gs.reset ∧
    (∀ seg ∈ (splitSegments (driverTraceAux people gs.rules gs.reset).1 []).1,
      seg.Perm (people.map Person.name)) ∧
    (splitSegments (driverTraceAux people gs.rules gs.reset).1 []).2.Nodup ∧
    (splitSegments (driverTraceAux people gs.rules gs.reset).1 []).2
      ⊆ people.map Person.name := by
  obtain ⟨h1, h2, h3⟩ := hostRotation_aux people hne hnd gs.rules gs.reset [] hhost
    List.nodup_nil (by simp) (by simp [GameScoring.reset])
  exact ⟨driverTraceAux_snd people gs.rules gs.reset, h1, h2, h3⟩

/-- Witness for C7: a 2-guest roster with four host rounds — the rotation
completes and restarts. -/
theorem C7_host_rotation_witness :
    (rotationRoster ≠ [] ∧ (rotationRoster.map Person.name).Nodup ∧
      (∀ r ∈ rotationDemo.rules, isHostRule r = true)) ∧
    ((driverTraceAux rotationRoster rotationDemo.rules rotationDemo.reset).2
        = rotationDemo.rules.foldl (driverStep rotationRoster) rotationDemo.reset ∧
    (∀ seg ∈ (splitSegments
        (driverTraceAux rotationRoster rotationDemo.rules rotationDemo.reset).1 []).1,
      seg.Perm (rotationRoster.map Person.name)) ∧
    (splitSegments
        (driverTraceAux rotationRoster rotationDemo.rules rotationDemo.reset).1 []).2.Nodup ∧
    (splitSegments
        (driverTraceAux rotationRoster rotationDemo.rules rotationDemo.reset).1 []).2
      ⊆ rotationRoster.map Person.name) :=
  ⟨⟨by decide, by decide, by decide⟩,
    C7_host_rotation rotationDemo rotationRoster (by decide) (by decide) (by decide)⟩

end DinnerParty
